import Mathlib

/-!
Verification development for the Laberion face-recognition worker service
(`face_recognition_service/app.py`).

The module-level state of the service is three parallel structures:
`known_face_encodings : List[np.ndarray]`, `known_face_ids : List[int]` and
`known_face_metadata : Dict[int, Dict]` (worker_id → metadata).  Embeddings
are modelled as lists of real numbers, timestamps (`datetime.now()`) as an
abstract `Nat` passed to each operation, and the Python dict as an
insertion-ordered association list with unique keys (matching CPython dict
semantics: update-in-place keeps position, fresh keys append, `del` removes).

Disk persistence (`pickle`) is modelled at the data level: `save_known_faces`
produces a `StoreData` blob via a list of file-system operations, and
`load_known_faces` consumes a `StoreFile` (missing / unreadable / readable
blob).  The boolean result of `save_known_faces` is modelled as a `saveOk`
parameter to each mutating operation; the Python code discards that result,
which the embedding mirrors by binding and ignoring it.
-/

set_option autoImplicit false

abbrev Emb := List ℝ

/-- `CONFIG['MAX_FACES_PER_WORKER']`. -/
def MAX_FACES_PER_WORKER : Nat := 10

/-- `CONFIG['KNOWN_FACES_FILE']`. -/
def KNOWN_FACES_FILE : String := "known_faces.dat"

/-- Per-worker metadata dict: `first_enrolled`, `last_enrolled`,
`total_faces`, `enrollment_dates`. -/
structure WMeta where
  first_enrolled : Nat
  last_enrolled : Nat
  total_faces : Nat
  enrollment_dates : List Nat
deriving DecidableEq

/-- The module-level mutable state of the service. -/
structure FaceIndex where
  known_face_encodings : List Emb
  known_face_ids : List Int
  known_face_metadata : List (Int × WMeta)

/-- `known_face_metadata[k]` lookup (`k in known_face_metadata` is
`(dictGet d k).isSome`). -/
def dictGet : List (Int × WMeta) → Int → Option WMeta
  | [], _ => none
  | (k', v) :: t, k => if k' = k then some v else dictGet t k

/-- `known_face_metadata[k] = v`: update in place if the key is present,
append otherwise (CPython dict insertion order). -/
def dictInsert : List (Int × WMeta) → Int → WMeta → List (Int × WMeta)
  | [], k, v => [(k, v)]
  | (k', v') :: t, k, v => if k' = k then (k, v) :: t else (k', v') :: dictInsert t k v

/-- `del known_face_metadata[k]`. -/
def dictErase : List (Int × WMeta) → Int → List (Int × WMeta)
  | [], _ => []
  | (k', v') :: t, k => if k' = k then t else (k', v') :: dictErase t k

/-- Error codes the `/enroll` endpoint can return. -/
inductive ErrCode
  | NO_FACE_DETECTED
  | MULTIPLE_FACES
  | MAX_FACES_REACHED
deriving DecidableEq

/-- The semantic fields of the `/enroll` JSON response. -/
structure EnrollResponse where
  success : Bool
  code : Option ErrCode
  worker_id : Option Int
  face_index : Option Nat
  total_faces_for_worker : Option Nat
  total_faces_in_system : Option Nat
  status : Nat
deriving DecidableEq

/-- `/enroll` after worker-id parsing and face extraction: `face_encodings`
is the list the detector returned for the uploaded image. -/
def enroll (worker_id : Int) (face_encodings : List Emb) (now : Nat)
    (saveOk : Bool) (st : FaceIndex) : EnrollResponse × FaceIndex :=
  match face_encodings with
  | [] => (⟨false, some .NO_FACE_DETECTED, none, none, none, none, 400⟩, st)
  | _ :: _ :: _ => (⟨false, some .MULTIPLE_FACES, none, none, none, none, 400⟩, st)
  | [face_encoding] =>
    let worker_face_count := st.known_face_ids.count worker_id
    if MAX_FACES_PER_WORKER ≤ worker_face_count then
      (⟨false, some .MAX_FACES_REACHED, none, none, none, none, 400⟩, st)
    else
      let encodings := st.known_face_encodings ++ [face_encoding]
      let ids := st.known_face_ids ++ [worker_id]
      let meta :=
        match dictGet st.known_face_metadata worker_id with
        | none =>
          dictInsert st.known_face_metadata worker_id ⟨now, now, 1, [now]⟩
        | some m =>
          dictInsert st.known_face_metadata worker_id
            ⟨m.first_enrolled, now, worker_face_count + 1, m.enrollment_dates ++ [now]⟩
      let _ := saveOk
      (⟨true, none, some worker_id, some (encodings.length - 1),
        some (worker_face_count + 1), some encodings.length, 200⟩,
       ⟨encodings, ids, meta⟩)

/-- The semantic fields of the `/enroll_batch` JSON response; `results` is
the per-image (index, succeeded?) list. -/
structure BatchResponse where
  success : Bool
  successful : Nat
  failed : Nat
  results : List (Nat × Bool)
  total_faces_for_worker : Nat
deriving DecidableEq

/-- The loop accumulator of `/enroll_batch`. -/
structure BatchAcc where
  successful : Nat
  failed : Nat
  results : List (Nat × Bool)
  encodings : List Emb
  ids : List Int

/-- The per-image loop of `/enroll_batch`: an image succeeds exactly when
the detector returned a single face (`face_encodings and len(...) == 1`). -/
def batchLoop (worker_id : Int) : List (List Emb) → Nat → BatchAcc → BatchAcc
  | [], _, acc => acc
  | img :: rest, i, acc =>
    match img with
    | [e] =>
      batchLoop worker_id rest (i + 1)
        ⟨acc.successful + 1, acc.failed, acc.results ++ [(i, true)],
         acc.encodings ++ [e], acc.ids ++ [worker_id]⟩
    | _ =>
      batchLoop worker_id rest (i + 1)
        ⟨acc.successful, acc.failed + 1, acc.results ++ [(i, false)],
         acc.encodings, acc.ids⟩

/-- `/enroll_batch`: each element of `images` is the detector output for one
uploaded image. -/
def enroll_batch (worker_id : Int) (images : List (List Emb)) (now : Nat)
    (saveOk : Bool) (st : FaceIndex) : BatchResponse × FaceIndex :=
  if images.isEmpty then
    (⟨false, 0, 0, [], 0⟩, st)
  else
    let acc := batchLoop worker_id images 0 ⟨0, 0, [], st.known_face_encodings, st.known_face_ids⟩
    let meta :=
      if 0 < acc.successful then
        match dictGet st.known_face_metadata worker_id with
        | none =>
          dictInsert st.known_face_metadata worker_id ⟨now, now, acc.successful, [now]⟩
        | some m =>
          dictInsert st.known_face_metadata worker_id
            ⟨m.first_enrolled, now, m.total_faces + acc.successful, m.enrollment_dates ++ [now]⟩
      else st.known_face_metadata
    let _ := saveOk
    (⟨true, acc.successful, acc.failed, acc.results, acc.ids.count worker_id⟩,
     ⟨acc.encodings, acc.ids, meta⟩)

/-- Python `enumerate(xs, n)`. -/
def enumerate {α : Type} : Nat → List α → List (Nat × α)
  | _, [] => []
  | n, a :: t => (n, a) :: enumerate (n + 1) t

/-- `[i for i, wid in enumerate(known_face_ids) if wid == worker_id]`. -/
def indicesToRemove (worker_id : Int) (ids : List Int) : List Nat :=
  ((enumerate 0 ids).filter (fun p => p.2 == worker_id)).map Prod.fst

/-- The removal loop of `/worker/<id>/faces` DELETE: pop both parallel lists
at each index of the given list. -/
def removePass : List Nat → List Emb × List Int → List Emb × List Int
  | [], p => p
  | i :: rest, p => removePass rest (p.1.eraseIdx i, p.2.eraseIdx i)

/-- The semantic fields of the DELETE `/worker/<id>/faces` JSON response. -/
structure DeleteResponse where
  success : Bool
  worker_id : Option Int
  faces_deleted : Option Nat
  status : Nat
deriving DecidableEq

/-- `/worker/<id>/faces` DELETE.  The index list is ascending, so Python's
`sorted(indices_to_remove, reverse=True)` is its reverse. -/
def delete_worker_faces (worker_id : Int) (saveOk : Bool) (st : FaceIndex) :
    DeleteResponse × FaceIndex :=
  let indices_to_remove := indicesToRemove worker_id st.known_face_ids
  if indices_to_remove.isEmpty then
    (⟨false, none, none, 404⟩, st)
  else
    let p := removePass indices_to_remove.reverse
      (st.known_face_encodings, st.known_face_ids)
    let meta :=
      if (dictGet st.known_face_metadata worker_id).isSome then
        dictErase st.known_face_metadata worker_id
      else st.known_face_metadata
    let _ := saveOk
    (⟨true, some worker_id, some indices_to_remove.length, 200⟩,
     ⟨p.1, p.2, meta⟩)

/-- The pickled blob written by `save_known_faces`; `metadata` is optional
because `load_known_faces` reads it with `data.get('metadata', {})`. -/
structure StoreData where
  encodings : List Emb
  ids : List Int
  metadata : Option (List (Int × WMeta))
  saved_at : Nat
  version : String

/-- The dict `save_known_faces` serializes. -/
def mkStoreData (st : FaceIndex) (now : Nat) : StoreData :=
  ⟨st.known_face_encodings, st.known_face_ids, some st.known_face_metadata, now, "1.0"⟩

/-- File-system effects at the granularity relevant to save atomicity:
writing a blob to a path, or atomically replacing `dst` with `src`. -/
inductive FsOp
  | write (path : String) (blob : StoreData)
  | replace (src : String) (dst : String)

/-- The file-system operations `save_known_faces` performs: a single direct
`open(CONFIG['KNOWN_FACES_FILE'], 'wb')` + `pickle.dump`. -/
def save_known_faces_ops (st : FaceIndex) (now : Nat) : List FsOp :=
  [FsOp.write KNOWN_FACES_FILE (mkStoreData st now)]

/-- What `load_known_faces` can find on disk: no file, an unreadable file
(the `except` path), or a readable pickled blob. -/
inductive StoreFile
  | missing
  | corrupt
  | ok (d : StoreData)

/-- `load_known_faces`: missing or unreadable files yield the empty state;
otherwise the three components are read back from the blob. -/
def load_known_faces : StoreFile → FaceIndex
  | .missing => ⟨[], [], []⟩
  | .corrupt => ⟨[], [], []⟩
  | .ok d => ⟨d.encodings, d.ids, d.metadata.getD []⟩

/-- Stated from the spec, for comparison with `save_known_faces_ops`:
"write to a temporary location and replace the durable file in one step" —
the op sequence writes the blob to some path other than the durable file and
then atomically replaces the durable file with it. -/
def save_atomic_via_temp (ops : List FsOp) : Prop :=
  ∃ tmp blob, tmp ≠ KNOWN_FACES_FILE ∧
    ops = [FsOp.write tmp blob, FsOp.replace tmp KNOWN_FACES_FILE]

/-- Stated from the spec, for comparison with the embedded responses: a
`PersistenceWarning` flag on the response of a mutation whose save failed
requires, at minimum, that the failed-save response differ from the
successful-save response of the same operation. -/
def persistence_warning_flagged {α : Type} (respFail respOk : α) : Prop :=
  respFail ≠ respOk

/-- Euclidean distance over embedding components
(`face_recognition.face_distance` is `np.linalg.norm(stored - query)`). -/
noncomputable def euclidDist (a b : Emb) : ℝ :=
  Real.sqrt (((a.zip b).map (fun p => (p.1 - p.2) ^ 2)).sum)

/-- `face_recognition.face_distance(known_face_encodings, face)`. -/
noncomputable def face_distance (face_encodings : List Emb) (face_to_compare : Emb) :
    List ℝ :=
  face_encodings.map (fun e => euclidDist e face_to_compare)

/-- `np.argmin`: index of the first occurrence of the minimum. -/
noncomputable def argminIdx : List ℝ → Nat
  | [] => 0
  | a :: rest =>
    match rest with
    | [] => 0
    | _ :: _ =>
      let j := argminIdx rest
      if rest.getD j 0 < a then j + 1 else 0

/-- `find_best_match`.  `known_face_ids[best_match_index]` is modelled with
`get?`; under the lock-step invariant the index is in range, exactly when
Python's indexing does not raise. -/
noncomputable def find_best_match (face_encoding : Emb) (threshold : ℝ)
    (st : FaceIndex) : Option Int × ℝ :=
  match st.known_face_encodings with
  | [] => (none, 0)
  | _ :: _ =>
    let face_distances := face_distance st.known_face_encodings face_encoding
    let best_match_index := argminIdx face_distances
    let best_distance := face_distances.getD best_match_index 0
    let confidence := 1 - best_distance
    if threshold ≤ confidence then
      (st.known_face_ids.get? best_match_index, confidence)
    else
      (none, confidence)

/-- One mutating request against the service state. -/
inductive Op
  | opEnroll (worker_id : Int) (face_encodings : List Emb) (now : Nat) (saveOk : Bool)
  | opBatch (worker_id : Int) (images : List (List Emb)) (now : Nat) (saveOk : Bool)
  | opDelete (worker_id : Int) (saveOk : Bool)

/-- The state after one mutating request. -/
def applyOp (st : FaceIndex) : Op → FaceIndex
  | .opEnroll w encs now s => (enroll w encs now s st).2
  | .opBatch w imgs now s => (enroll_batch w imgs now s st).2
  | .opDelete w s => (delete_worker_faces w s st).2

/-- The empty state the service starts from. -/
def initialIndex : FaceIndex := ⟨[], [], []⟩

/-- The state after a sequence of mutating requests. -/
def runOps : FaceIndex → List Op → FaceIndex
  | st, [] => st
  | st, op :: rest => runOps (applyOp st op) rest

/-- The metadata-consistency invariant: metadata keys are unique, the two
parallel lists are in lock-step, a present metadata entry counts exactly the
worker's records (and is positive), and an absent entry means no records. -/
def MetaInv (st : FaceIndex) : Prop :=
  (st.known_face_metadata.map Prod.fst).Nodup ∧
  st.known_face_encodings.length = st.known_face_ids.length ∧
  (∀ w m, dictGet st.known_face_metadata w = some m →
    st.known_face_ids.count w = m.total_faces ∧ 0 < m.total_faces) ∧
  (∀ w, dictGet st.known_face_metadata w = none → st.known_face_ids.count w = 0)

/-- Number of images in a batch the per-image loop classifies as success
(detector returned exactly one face). -/
def successCount (images : List (List Emb)) : Nat :=
  images.countP (fun img => img.length == 1)

/-- A concrete state in which worker 7 already holds exactly
`MAX_FACES_PER_WORKER` records. -/
def stTenOfSeven : FaceIndex :=
  ⟨List.replicate 10 [0], List.replicate 10 7, [(7, ⟨0, 0, 10, [0]⟩)]⟩

/-- A concrete state with two workers: worker 5 holds records at positions
0 and 2, worker 9 at position 1. -/
def stTwoWorkers : FaceIndex :=
  ⟨[[0], [1], [2]], [5, 9, 5], [(5, ⟨0, 0, 2, [0]⟩), (9, ⟨0, 0, 1, [0]⟩)]⟩

theorem dictGet_insert_self (d : List (Int × WMeta)) (k : Int) (v : WMeta) :
    dictGet (dictInsert d k v) k = some v := by
  induction d with
  | nil => simp [dictInsert, dictGet]
  | cons hd t ih =>
    obtain ⟨k', v'⟩ := hd
    by_cases h : k' = k <;> simp [dictInsert, dictGet, h, ih]

theorem dictGet_insert_ne (d : List (Int × WMeta)) (k : Int) (v : WMeta)
    (w : Int) (h : w ≠ k) : dictGet (dictInsert d k v) w = dictGet d w := by
  induction d with
  | nil =>
    have h1 : ¬ k = w := fun hh => h hh.symm
    simp [dictInsert, dictGet, h1]
  | cons hd t ih =>
    obtain ⟨k', v'⟩ := hd
    by_cases hk : k' = k
    · subst hk
      have h1 : ¬ k' = w := fun hh => h hh.symm
      simp [dictInsert, dictGet, h1]
    · by_cases hw : k' = w <;> simp [dictInsert, dictGet, hk, hw, ih, h]

theorem mem_keys_dictInsert (d : List (Int × WMeta)) (k : Int) (v : WMeta)
    (w : Int) :
    w ∈ (dictInsert d k v).map Prod.fst ↔ w ∈ d.map Prod.fst ∨ w = k := by
  induction d with
  | nil => simp [dictInsert]
  | cons hd t ih =>
    obtain ⟨k', v'⟩ := hd
    by_cases h : k' = k
    · subst h
      by_cases hw : w = k' <;> simp [dictInsert, hw]
    · simp only [dictInsert, if_neg h, List.map_cons, List.mem_cons, ih]
      tauto

theorem keys_dictInsert_nodup (d : List (Int × WMeta)) (k : Int) (v : WMeta)
    (h : (d.map Prod.fst).Nodup) : ((dictInsert d k v).map Prod.fst).Nodup := by
  induction d with
  | nil => simp [dictInsert]
  | cons hd t ih =>
    obtain ⟨k', v'⟩ := hd
    simp only [List.map_cons, List.nodup_cons] at h
    by_cases hk : k' = k
    · subst hk
      simpa [dictInsert] using h
    · simp only [dictInsert, if_neg hk, List.map_cons, List.nodup_cons,
        mem_keys_dictInsert]
      exact ⟨by rintro (hm | hm); exacts [h.1 hm, hk hm], ih h.2⟩

theorem dictGet_eq_none_of_not_mem (d : List (Int × WMeta)) (k : Int)
    (h : k ∉ d.map Prod.fst) : dictGet d k = none := by
  induction d with
  | nil => rfl
  | cons hd t ih =>
    obtain ⟨k', v'⟩ := hd
    rw [List.map_cons] at h
    have h1 : ¬ k' = k := fun hh => h (hh ▸ List.mem_cons_self _ _)
    have h2 : k ∉ t.map Prod.fst := fun hh => h (List.mem_cons_of_mem _ hh)
    simp [dictGet, h1, ih h2]

theorem dictGet_isSome_iff_mem_keys (d : List (Int × WMeta)) (k : Int) :
    (dictGet d k).isSome ↔ k ∈ d.map Prod.fst := by
  induction d with
  | nil => simp [dictGet]
  | cons hd t ih =>
    obtain ⟨k', v'⟩ := hd
    by_cases h : k' = k
    · subst h; simp [dictGet]
    · have h2 : ¬ k = k' := fun hh => h hh.symm
      simp [dictGet, h, h2, ih]

theorem dictGet_erase_self (d : List (Int × WMeta)) (k : Int)
    (h : (d.map Prod.fst).Nodup) : dictGet (dictErase d k) k = none := by
  induction d with
  | nil => rfl
  | cons hd t ih =>
    obtain ⟨k', v'⟩ := hd
    rw [List.map_cons] at h
    have h1 : k' ∉ t.map Prod.fst := (List.nodup_cons.mp h).1
    have h2 := (List.nodup_cons.mp h).2
    by_cases hk : k' = k
    · subst hk
      simpa [dictErase] using dictGet_eq_none_of_not_mem t k' h1
    · simp [dictErase, dictGet, hk, ih h2]

theorem dictGet_erase_ne (d : List (Int × WMeta)) (k w : Int) (h : w ≠ k) :
    dictGet (dictErase d k) w = dictGet d w := by
  induction d with
  | nil => rfl
  | cons hd t ih =>
    obtain ⟨k', v'⟩ := hd
    by_cases hk : k' = k
    · subst hk
      have h1 : ¬ k' = w := fun hh => h hh.symm
      simp [dictErase, dictGet, h1]
    · simp [dictErase, dictGet, hk, ih]

theorem keys_dictErase_sublist (d : List (Int × WMeta)) (k : Int) :
    ((dictErase d k).map Prod.fst).Sublist (d.map Prod.fst) := by
  induction d with
  | nil => simp [dictErase]
  | cons hd t ih =>
    obtain ⟨k', v'⟩ := hd
    by_cases hk : k' = k
    · simp only [dictErase, if_pos hk, List.map_cons]
      exact (List.Sublist.refl _).cons _
    · simp only [dictErase, if_neg hk, List.map_cons]
      exact ih.cons₂ _

theorem keys_dictErase_nodup (d : List (Int × WMeta)) (k : Int)
    (h : (d.map Prod.fst).Nodup) : ((dictErase d k).map Prod.fst).Nodup :=
  (keys_dictErase_sublist d k).nodup h

theorem dictGet_of_mem (d : List (Int × WMeta)) (w : Int) (m : WMeta)
    (hnd : (d.map Prod.fst).Nodup) (hm : (w, m) ∈ d) : dictGet d w = some m := by
  induction d with
  | nil => cases hm
  | cons hd t ih =>
    obtain ⟨k', v'⟩ := hd
    rw [List.map_cons] at hnd
    have h1 : k' ∉ t.map Prod.fst := (List.nodup_cons.mp hnd).1
    have h2 := (List.nodup_cons.mp hnd).2
    rcases List.mem_cons.mp hm with h | h
    · cases h
      simp [dictGet]
    · have hne : ¬ k' = w := by
        intro he
        subst he
        exact h1 (List.mem_map.mpr ⟨(k', m), h, rfl⟩)
      simp [dictGet, hne, ih h2 h]

theorem batchLoop_successful (w : Int) (imgs : List (List Emb)) (i : Nat)
    (acc : BatchAcc) :
    (batchLoop w imgs i acc).successful = acc.successful + successCount imgs := by
  induction imgs generalizing i acc with
  | nil => simp [batchLoop, successCount]
  | cons img rest ih =>
    match img with
    | [e] =>
      simp only [batchLoop, ih, successCount, List.countP_cons]
      simp [Nat.add_assoc, Nat.add_comm]
    | [] =>
      simp only [batchLoop, ih, successCount, List.countP_cons]
      simp
    | e :: f :: t =>
      simp only [batchLoop, ih, successCount, List.countP_cons]
      simp

theorem batchLoop_ids (w : Int) (imgs : List (List Emb)) (i : Nat)
    (acc : BatchAcc) :
    (batchLoop w imgs i acc).ids = acc.ids ++ List.replicate (successCount imgs) w := by
  induction imgs generalizing i acc with
  | nil => simp [batchLoop, successCount]
  | cons img rest ih =>
    match img with
    | [e] =>
      simp only [batchLoop, ih, successCount, List.countP_cons]
      simp [List.replicate_succ, List.append_assoc]
    | [] =>
      simp only [batchLoop, ih, successCount, List.countP_cons]
      simp
    | e :: f :: t =>
      simp only [batchLoop, ih, successCount, List.countP_cons]
      simp

theorem batchLoop_encodings_length (w : Int) (imgs : List (List Emb)) (i : Nat)
    (acc : BatchAcc) :
    (batchLoop w imgs i acc).encodings.length
      = acc.encodings.length + successCount imgs := by
  induction imgs generalizing i acc with
  | nil => simp [batchLoop, successCount]
  | cons img rest ih =>
    match img with
    | [e] =>
      simp only [batchLoop, ih, successCount, List.countP_cons]
      simp [Nat.add_assoc, Nat.add_comm]
    | [] =>
      simp only [batchLoop, ih, successCount, List.countP_cons]
      simp
    | e :: f :: t =>
      simp only [batchLoop, ih, successCount, List.countP_cons]
      simp

theorem enumerate_filter_shift (w : Int) (t : List Int) (n : Nat) :
    ((enumerate n t).filter (fun p => p.2 == w)).map Prod.fst
      = (((enumerate 0 t).filter (fun p => p.2 == w)).map Prod.fst).map
          (fun i => i + n) := by
  induction t generalizing n with
  | nil => simp [enumerate]
  | cons a t ih =>
    have e1 : enumerate n (a :: t) = (n, a) :: enumerate (n + 1) t := rfl
    have e0 : enumerate 0 (a :: t) = (0, a) :: enumerate 1 t := rfl
    rw [e1, e0, List.filter_cons, List.filter_cons]
    by_cases h : (a == w) = true
    · rw [if_pos h, if_pos h]
      simp only [List.map_cons]
      rw [ih (n + 1), ih 1]
      simp only [List.map_map]
      congr 1
      · simp
      · apply List.map_congr_left
        intro p _
        simp only [Function.comp_apply]
        omega
    · rw [if_neg h, if_neg h, ih (n + 1), ih 1]
      simp only [List.map_map]
      apply List.map_congr_left
      intro p _
      simp only [Function.comp_apply]
      omega

theorem indicesToRemove_nil (w : Int) : indicesToRemove w [] = [] := rfl

theorem indicesToRemove_cons (w a : Int) (t : List Int) :
    indicesToRemove w (a :: t)
      = (if a = w then [0] else []) ++ (indicesToRemove w t).map (fun i => i + 1) := by
  unfold indicesToRemove
  have e0 : enumerate 0 (a :: t) = (0, a) :: enumerate 1 t := rfl
  rw [e0, List.filter_cons]
  by_cases h : a = w
  · have hb : (a == w) = true := beq_iff_eq.mpr h
    rw [if_pos hb, List.map_cons, if_pos h, List.singleton_append]
    congr 1
    exact enumerate_filter_shift w t 1
  · have hb : ¬ (a == w) = true := by simp [h]
    rw [if_neg hb, if_neg h, List.nil_append]
    exact enumerate_filter_shift w t 1

theorem indicesToRemove_length (w : Int) (ids : List Int) :
    (indicesToRemove w ids).length = ids.count w := by
  induction ids with
  | nil => simp [indicesToRemove_nil]
  | cons a t ih =>
    rw [indicesToRemove_cons, List.length_append, List.length_map, ih,
      List.count_cons]
    by_cases h : a = w
    · simp [h, Nat.add_comm]
    · have hb : (w == a) = false := beq_eq_false_iff_ne.mpr (fun hh => h hh.symm)
      simp [h, hb]

theorem removePass_append (J K : List Nat) (p : List Emb × List Int) :
    removePass (J ++ K) p = removePass K (removePass J p) := by
  induction J generalizing p with
  | nil => rfl
  | cons j J ih => simp [removePass, ih]

theorem removePass_shift (J : List Nat) (e : Emb) (et : List Emb) (a : Int)
    (t : List Int) :
    removePass (J.map (fun i => i + 1)) (e :: et, a :: t)
      = (e :: (removePass J (et, t)).1, a :: (removePass J (et, t)).2) := by
  induction J generalizing et t with
  | nil => rfl
  | cons j J ih =>
    simp only [List.map_cons, removePass, List.eraseIdx_cons_succ]
    exact ih _ _

theorem removePass_spec (w : Int) (ids : List Int) : ∀ (encs : List Emb),
    encs.length = ids.length →
    removePass (indicesToRemove w ids).reverse (encs, ids)
      = (((encs.zip ids).filter (fun p => !(p.2 == w))).map Prod.fst,
         ids.filter (fun x => !(x == w))) := by
  induction ids with
  | nil =>
    intro encs hlen
    rw [List.length_nil, List.length_eq_zero] at hlen
    subst hlen
    rfl
  | cons a t ih =>
    intro encs hlen
    match encs with
    | [] => simp at hlen
    | e :: et =>
      have hlen' : et.length = t.length := by simpa using hlen
      rw [indicesToRemove_cons]
      by_cases h : a = w
      · have hb : (a == w) = true := beq_iff_eq.mpr h
        rw [if_pos h, List.singleton_append, List.reverse_cons,
          ← List.map_reverse, removePass_append, removePass_shift, ih et hlen']
        simp [removePass, List.zip_cons_cons, List.filter_cons, hb]
      · have hb : (a == w) = false := by simp [h]
        rw [if_neg h, List.nil_append, ← List.map_reverse, removePass_shift,
          ih et hlen']
        simp [List.zip_cons_cons, List.filter_cons, hb]

theorem count_append_single (l : List Int) (a b : Int) :
    (l ++ [b]).count a = l.count a + if a = b then 1 else 0 := by
  rw [List.count_append]
  by_cases h : a = b <;> simp [h, List.count_cons]

theorem count_replicate_ne (a w : Int) (n : Nat) (h : a ≠ w) :
    (List.replicate n w).count a = 0 := by
  simp only [List.count_replicate]
  rw [if_neg]
  intro hh
  exact h (beq_iff_eq.mp hh).symm

theorem count_filter_ne_self (l : List Int) (w : Int) :
    (l.filter (fun x => !(x == w))).count w = 0 := by
  rw [List.count_eq_zero]
  simp

theorem count_filter_ne_other (l : List Int) (w w' : Int) (h : w' ≠ w) :
    (l.filter (fun x => !(x == w))).count w' = l.count w' :=
  List.count_filter (by simp [h])

theorem zip_filter_snd (q : Int → Bool) (ids : List Int) :
    ∀ (encs : List Emb), encs.length = ids.length →
    ((encs.zip ids).filter (fun p => q p.2)).map Prod.snd = ids.filter q := by
  induction ids with
  | nil =>
    intro encs hlen
    rw [List.length_nil, List.length_eq_zero] at hlen
    subst hlen
    rfl
  | cons a t ih =>
    intro encs hlen
    match encs with
    | [] => simp at hlen
    | e :: et =>
      have hlen' : et.length = t.length := by simpa using hlen
      by_cases h : q a = true <;>
        simp [List.zip_cons_cons, List.filter_cons, h, ih et hlen']

theorem metaInv_enroll (st : FaceIndex) (w : Int) (encs : List Emb) (now : Nat)
    (saveOk : Bool) (h : MetaInv st) : MetaInv (enroll w encs now saveOk st).2 := by
  obtain ⟨hnd, hlen, hsome, hnone⟩ := h
  match encs with
  | [] => exact ⟨hnd, hlen, hsome, hnone⟩
  | e :: f :: rest => exact ⟨hnd, hlen, hsome, hnone⟩
  | [e] =>
    by_cases hcap : MAX_FACES_PER_WORKER ≤ st.known_face_ids.count w
    · simp only [enroll, if_pos hcap]
      exact ⟨hnd, hlen, hsome, hnone⟩
    · simp only [enroll, if_neg hcap]
      refine ⟨?_, ?_, ?_, ?_⟩
      · cases hmw : dictGet st.known_face_metadata w <;>
          simp only [hmw] <;> exact keys_dictInsert_nodup _ _ _ hnd
      · simp [hlen]
      · intro w' m' hm'
        by_cases hww : w' = w
        · subst hww
          cases hmw : dictGet st.known_face_metadata w' with
          | none =>
            rw [hmw] at hm'
            rw [dictGet_insert_self] at hm'
            cases hm'
            have h0 : st.known_face_ids.count w' = 0 := hnone w' hmw
            simp [count_append_single, h0]
          | some m =>
            rw [hmw] at hm'
            rw [dictGet_insert_self] at hm'
            cases hm'
            simp [count_append_single]
        · have hc : (st.known_face_ids ++ [w]).count w'
              = st.known_face_ids.count w' := by
            simp [count_append_single, hww]
          cases hmw : dictGet st.known_face_metadata w <;>
            rw [hmw] at hm' <;>
            rw [dictGet_insert_ne _ _ _ _ hww] at hm' <;>
            exact hc ▸ hsome w' m' hm'
      · intro w' hm'
        by_cases hww : w' = w
        · subst hww
          cases hmw : dictGet st.known_face_metadata w' <;>
            rw [hmw] at hm' <;> rw [dictGet_insert_self] at hm' <;> cases hm'
        · have hc : (st.known_face_ids ++ [w]).count w'
              = st.known_face_ids.count w' := by
            simp [count_append_single, hww]
          cases hmw : dictGet st.known_face_metadata w <;>
            rw [hmw] at hm' <;>
            rw [dictGet_insert_ne _ _ _ _ hww] at hm' <;>
            exact hc ▸ hnone w' hm'

theorem metaInv_batch (st : FaceIndex) (w : Int) (imgs : List (List Emb))
    (now : Nat) (saveOk : Bool) (h : MetaInv st) :
    MetaInv (enroll_batch w imgs now saveOk st).2 := by
  obtain ⟨hnd, hlen, hsome, hnone⟩ := h
  by_cases he : imgs.isEmpty = true
  · simp only [enroll_batch, if_pos he]
    exact ⟨hnd, hlen, hsome, hnone⟩
  · simp only [enroll_batch, if_neg he]
    have hids0 := batchLoop_ids w imgs 0 ⟨0, 0, [], st.known_face_encodings, st.known_face_ids⟩
    have hsc0 := batchLoop_successful w imgs 0 ⟨0, 0, [], st.known_face_encodings, st.known_face_ids⟩
    have henc0 := batchLoop_encodings_length w imgs 0 ⟨0, 0, [], st.known_face_encodings, st.known_face_ids⟩
    set acc := batchLoop w imgs 0 ⟨0, 0, [], st.known_face_encodings, st.known_face_ids⟩ with hacc
    have hids : acc.ids = st.known_face_ids ++ List.replicate (successCount imgs) w := hids0
    have hsc : acc.successful = successCount imgs := by
      rw [hsc0]
      exact Nat.zero_add _
    have henc : acc.encodings.length
        = st.known_face_encodings.length + successCount imgs := henc0
    have hcw : acc.ids.count w = st.known_face_ids.count w + successCount imgs := by
      rw [hids, List.count_append, List.count_replicate_self]
    have hcw' : ∀ w', w' ≠ w → acc.ids.count w' = st.known_face_ids.count w' := by
      intro w' hww
      rw [hids, List.count_append, count_replicate_ne _ _ _ hww, Nat.add_zero]
    have hilen : acc.ids.length = st.known_face_ids.length + successCount imgs := by
      rw [hids, List.length_append, List.length_replicate]
    by_cases hpos : 0 < acc.successful
    · have hscpos : 0 < successCount imgs := hsc ▸ hpos
      refine ⟨?_, ?_, ?_, ?_⟩
      · simp only [if_pos hpos]
        cases hmw : dictGet st.known_face_metadata w <;>
          simp only [hmw] <;> exact keys_dictInsert_nodup _ _ _ hnd
      · rw [henc, hilen, hlen]
      · intro w' m' hm'
        simp only [if_pos hpos] at hm'
        by_cases hww : w' = w
        · subst hww
          cases hmw : dictGet st.known_face_metadata w' with
          | none =>
            rw [hmw, dictGet_insert_self] at hm'
            cases hm'
            have h0 : st.known_face_ids.count w' = 0 := hnone w' hmw
            constructor
            · rw [hcw, h0, Nat.zero_add, ← hsc]
            · exact hpos
          | some m =>
            rw [hmw, dictGet_insert_self] at hm'
            cases hm'
            constructor
            · rw [hcw, (hsome w' m hmw).1, ← hsc]
            · have h1 := (hsome w' m hmw).2
              show 0 < m.total_faces + acc.successful
              omega
        · cases hmw : dictGet st.known_face_metadata w <;>
            rw [hmw, dictGet_insert_ne _ _ _ _ hww] at hm' <;>
            exact (hcw' w' hww) ▸ hsome w' m' hm'
      · intro w' hm'
        simp only [if_pos hpos] at hm'
        by_cases hww : w' = w
        · subst hww
          cases hmw : dictGet st.known_face_metadata w' <;>
            rw [hmw, dictGet_insert_self] at hm' <;> cases hm'
        · cases hmw : dictGet st.known_face_metadata w <;>
            rw [hmw, dictGet_insert_ne _ _ _ _ hww] at hm' <;>
            exact (hcw' w' hww) ▸ hnone w' hm'
    · have hsc0 : successCount imgs = 0 := by omega
      have hids0 : acc.ids = st.known_face_ids := by
        rw [hids, hsc0, List.replicate_zero, List.append_nil]
      refine ⟨?_, ?_, ?_, ?_⟩
      · simp only [if_neg hpos]
        exact hnd
      · simp only [if_neg hpos]
        rw [henc, hilen, hlen, hsc0]
      · intro w' m' hm'
        simp only [if_neg hpos] at hm'
        rw [hids0]
        exact hsome w' m' hm'
      · intro w' hm'
        simp only [if_neg hpos] at hm'
        rw [hids0]
        exact hnone w' hm'

theorem delete_notfound (st : FaceIndex) (w : Int) (saveOk : Bool)
    (hcnt : st.known_face_ids.count w = 0) :
    delete_worker_faces w saveOk st = (⟨false, none, none, 404⟩, st) := by
  have hlen0 : (indicesToRemove w st.known_face_ids).length = 0 := by
    rw [indicesToRemove_length, hcnt]
  have he : (indicesToRemove w st.known_face_ids).isEmpty = true := by
    rw [List.isEmpty_iff, ← List.length_eq_zero]
    exact hlen0
  simp only [delete_worker_faces, he, if_pos]

theorem delete_found (st : FaceIndex) (w : Int) (saveOk : Bool)
    (hlen : st.known_face_encodings.length = st.known_face_ids.length)
    (hcnt : 0 < st.known_face_ids.count w) :
    delete_worker_faces w saveOk st =
      (⟨true, some w, some (st.known_face_ids.count w), 200⟩,
       ⟨((st.known_face_encodings.zip st.known_face_ids).filter
           (fun p => !(p.2 == w))).map Prod.fst,
        st.known_face_ids.filter (fun x => !(x == w)),
        if (dictGet st.known_face_metadata w).isSome then
          dictErase st.known_face_metadata w
        else st.known_face_metadata⟩) := by
  have hlenpos : (indicesToRemove w st.known_face_ids).length ≠ 0 := by
    rw [indicesToRemove_length]
    omega
  have he : ¬ (indicesToRemove w st.known_face_ids).isEmpty = true := by
    rw [List.isEmpty_iff, ← List.length_eq_zero]
    exact hlenpos
  simp only [delete_worker_faces, he, if_neg, Bool.false_eq_true, ite_false,
    if_false]
  rw [removePass_spec w st.known_face_ids st.known_face_encodings hlen,
    indicesToRemove_length]

theorem metaInv_delete (st : FaceIndex) (w : Int) (saveOk : Bool)
    (h : MetaInv st) : MetaInv (delete_worker_faces w saveOk st).2 := by
  obtain ⟨hnd, hlen, hsome, hnone⟩ := h
  by_cases hcnt : st.known_face_ids.count w = 0
  · rw [delete_notfound st w saveOk hcnt]
    exact ⟨hnd, hlen, hsome, hnone⟩
  · rw [delete_found st w saveOk hlen (Nat.pos_of_ne_zero hcnt)]
    refine ⟨?_, ?_, ?_, ?_⟩
    · by_cases hs : (dictGet st.known_face_metadata w).isSome
      · simp only [if_pos hs]
        exact keys_dictErase_nodup _ _ hnd
      · simp only [if_neg hs]
        exact hnd
    · show (((st.known_face_encodings.zip st.known_face_ids).filter
          (fun p => !(p.2 == w))).map Prod.fst).length
        = (st.known_face_ids.filter (fun x => !(x == w))).length
      rw [List.length_map,
        ← zip_filter_snd (fun x => !(x == w)) st.known_face_ids
          st.known_face_encodings hlen, List.length_map]
    · intro w' m' hm'
      by_cases hww : w' = w
      · subst hww
        exfalso
        by_cases hs : (dictGet st.known_face_metadata w').isSome
        · rw [if_pos hs, dictGet_erase_self _ _ hnd] at hm'
          cases hm'
        · rw [if_neg hs, Option.not_isSome_iff_eq_none.mp hs] at hm'
          cases hm'
      · have hc := count_filter_ne_other st.known_face_ids w w' hww
        by_cases hs : (dictGet st.known_face_metadata w).isSome
        · rw [if_pos hs, dictGet_erase_ne _ _ _ hww] at hm'
          exact hc ▸ hsome w' m' hm'
        · rw [if_neg hs] at hm'
          exact hc ▸ hsome w' m' hm'
    · intro w' hm'
      by_cases hww : w' = w
      · subst hww
        exact count_filter_ne_self _ _
      · have hc := count_filter_ne_other st.known_face_ids w w' hww
        by_cases hs : (dictGet st.known_face_metadata w).isSome
        · rw [if_pos hs, dictGet_erase_ne _ _ _ hww] at hm'
          exact hc ▸ hnone w' hm'
        · rw [if_neg hs] at hm'
          exact hc ▸ hnone w' hm'

theorem metaInv_applyOp (st : FaceIndex) (op : Op) (h : MetaInv st) :
    MetaInv (applyOp st op) := by
  cases op with
  | opEnroll w encs now s => exact metaInv_enroll st w encs now s h
  | opBatch w imgs now s => exact metaInv_batch st w imgs now s h
  | opDelete w s => exact metaInv_delete st w s h

theorem metaInv_initial : MetaInv initialIndex := by
  refine ⟨List.nodup_nil, rfl, ?_, ?_⟩
  · intro w m hm
    cases hm
  · intro w _
    rfl

theorem metaInv_runOps (ops : List Op) : ∀ (st : FaceIndex), MetaInv st →
    MetaInv (runOps st ops) := by
  induction ops with
  | nil => exact fun st h => h
  | cons op rest ih => exact fun st h => ih (applyOp st op) (metaInv_applyOp st op h)

theorem length_split_count (ids : List Int) (k : Int) :
    ids.length = ids.count k + (ids.filter (fun x => !(x == k))).length := by
  induction ids with
  | nil => rfl
  | cons a t ih =>
    by_cases h : a = k
    · have hb : (a == k) = true := beq_iff_eq.mpr h
      simp only [List.length_cons, List.count_cons, List.filter_cons, hb,
        Bool.not_true, Bool.false_eq_true, ite_true, ite_false, if_false]
      omega
    · have hb : (a == k) = false := beq_eq_false_iff_ne.mpr h
      simp only [List.length_cons, List.count_cons, List.filter_cons, hb,
        Bool.not_false, Bool.false_eq_true, ite_true, ite_false, if_false]
      omega

theorem sum_counts (keys : List Int) : ∀ (ids : List Int), keys.Nodup →
    (∀ x ∈ ids, x ∈ keys) → (keys.map (fun w => ids.count w)).sum = ids.length := by
  induction keys with
  | nil =>
    intro ids _ hcov
    match ids with
    | [] => rfl
    | x :: t => exact absurd (hcov x (List.mem_cons_self x t)) (List.not_mem_nil x)
  | cons k ks ih =>
    intro ids hnd hcov
    have hk : k ∉ ks := (List.nodup_cons.mp hnd).1
    have hnd' := (List.nodup_cons.mp hnd).2
    have hcov' : ∀ x ∈ ids.filter (fun x => !(x == k)), x ∈ ks := by
      intro x hx
      have hmem := List.mem_of_mem_filter hx
      have hpx := List.of_mem_filter hx
      have hxk : x ≠ k := by simpa using hpx
      rcases List.mem_cons.mp (hcov x hmem) with h | h
      · exact absurd h hxk
      · exact h
    have hcnt : ∀ w ∈ ks, (ids.filter (fun x => !(x == k))).count w = ids.count w := by
      intro w hw
      exact count_filter_ne_other ids k w (fun he => hk (he ▸ hw))
    rw [List.map_cons, List.sum_cons]
    have hsum := ih (ids.filter (fun x => !(x == k))) hnd' hcov'
    rw [List.map_congr_left hcnt] at hsum
    rw [hsum]
    exact (length_split_count ids k).symm

theorem sum_totals_of_metaInv (st : FaceIndex) (h : MetaInv st) :
    (st.known_face_metadata.map (fun p => p.2.total_faces)).sum
      = st.known_face_ids.length := by
  obtain ⟨hnd, hlen, hsome, hnone⟩ := h
  have hmap : st.known_face_metadata.map (fun p => p.2.total_faces)
      = st.known_face_metadata.map (fun p => st.known_face_ids.count p.1) := by
    apply List.map_congr_left
    intro p hp
    obtain ⟨w', m'⟩ := p
    have hg := dictGet_of_mem st.known_face_metadata w' m' hnd hp
    exact ((hsome w' m' hg).1).symm
  rw [hmap]
  have hcomp : st.known_face_metadata.map (fun p => st.known_face_ids.count p.1)
      = (st.known_face_metadata.map Prod.fst).map
          (fun w => st.known_face_ids.count w) := by
    rw [List.map_map]
    rfl
  rw [hcomp]
  apply sum_counts _ _ hnd
  intro x hx
  have hc : st.known_face_ids.count x ≠ 0 :=
    fun h0 => (List.count_eq_zero.mp h0) hx
  cases hg : dictGet st.known_face_metadata x with
  | none => exact absurd (hnone x hg) hc
  | some m =>
    rw [← dictGet_isSome_iff_mem_keys, hg]
    rfl

/-- Claim C4: starting from the empty index, after every sequence of
operations (enroll, enroll_batch, delete_worker_faces) every worker with a
metadata entry has exactly `total_faces` stored records, and the sum of
`total_faces` over all workers equals the length of the record sequence
(the lock-step parallel lists). -/
theorem C4_metadata_consistency (ops : List Op) :
    (∀ w m, dictGet (runOps initialIndex ops).known_face_metadata w = some m →
      (runOps initialIndex ops).known_face_ids.count w = m.total_faces) ∧
    ((runOps initialIndex ops).known_face_metadata.map
        (fun p => p.2.total_faces)).sum
      = (runOps initialIndex ops).known_face_ids.length ∧
    (runOps initialIndex ops).known_face_encodings.length
      = (runOps initialIndex ops).known_face_ids.length := by
  have h := metaInv_runOps ops initialIndex metaInv_initial
  obtain ⟨hnd, hlen, hsome, hnone⟩ := h
  exact ⟨fun w m hm => (hsome w m hm).1,
    sum_totals_of_metaInv _ ⟨hnd, hlen, hsome, hnone⟩, hlen⟩

/-- Witness for C4 at a concrete operation sequence. -/
theorem C4_metadata_consistency_witness :
    (runOps initialIndex [Op.opEnroll 3 [[0]] 5 true]).known_face_ids.count 3
      = (WMeta.mk 5 5 1 [5]).total_faces ∧
    ((runOps initialIndex [Op.opEnroll 3 [[0]] 5 true]).known_face_metadata.map
        (fun p => p.2.total_faces)).sum
      = (runOps initialIndex [Op.opEnroll 3 [[0]] 5 true]).known_face_ids.length := by
  have h := C4_metadata_consistency [Op.opEnroll 3 [[0]] 5 true]
  exact ⟨h.1 3 ⟨5, 5, 1, [5]⟩ (by decide), h.2.1⟩

/-- Claim C7: a single enroll attempted when the worker already holds
`MAX_FACES_PER_WORKER` records fails with `MAX_FACES_REACHED` (the code's
`CapacityExceeded`) and leaves the whole index — records, ids, metadata —
unchanged: no partial insert. -/
theorem C7_capacity_exceeded_no_partial_insert (st : FaceIndex) (w : Int)
    (e : Emb) (now : Nat) (saveOk : Bool)
    (h : st.known_face_ids.count w = MAX_FACES_PER_WORKER) :
    (enroll w [e] now saveOk st).1.success = false ∧
    (enroll w [e] now saveOk st).1.code = some ErrCode.MAX_FACES_REACHED ∧
    (enroll w [e] now saveOk st).2 = st := by
  have hcap : MAX_FACES_PER_WORKER ≤ st.known_face_ids.count w := le_of_eq h.symm
  have hresp : enroll w [e] now saveOk st
      = (⟨false, some ErrCode.MAX_FACES_REACHED, none, none, none, none, 400⟩, st) := by
    simp only [enroll, if_pos hcap]
  rw [hresp]
  exact ⟨rfl, rfl, rfl⟩

/-- Witness for C7 at a concrete state with ten records for worker 7. -/
theorem C7_capacity_exceeded_no_partial_insert_witness :
    stTenOfSeven.known_face_ids.count 7 = MAX_FACES_PER_WORKER ∧
    ((enroll 7 [[0]] 0 true stTenOfSeven).1.success = false ∧
     (enroll 7 [[0]] 0 true stTenOfSeven).1.code = some ErrCode.MAX_FACES_REACHED ∧
     (enroll 7 [[0]] 0 true stTenOfSeven).2 = stTenOfSeven) := by
  have hc : stTenOfSeven.known_face_ids.count 7 = MAX_FACES_PER_WORKER := by decide
  exact ⟨hc, C7_capacity_exceeded_no_partial_insert stTenOfSeven 7 [0] 0 true hc⟩

/-- Claim C1 (code bug): `enroll_batch` performs no capacity check.  With
worker 7 already holding `MAX_FACES_PER_WORKER = 10` records, batch-enrolling
one single-face image succeeds and leaves 11 records for the worker,
violating the per-worker cap. -/
theorem C1_batch_bypasses_capacity_cap :
    MAX_FACES_PER_WORKER = 10 ∧
    stTenOfSeven.known_face_ids.count 7 = MAX_FACES_PER_WORKER ∧
    (enroll_batch 7 [[[0]]] 0 true stTenOfSeven).1.successful = 1 ∧
    (enroll_batch 7 [[[0]]] 0 true stTenOfSeven).2.known_face_ids.count 7 = 11 := by
  exact ⟨rfl, by decide, by decide, by decide⟩

/-- Claim C2 counterexample: after a successful in-memory enroll, the
response built when the save failed is identical to the one built when the
save succeeded (the code discards `save_known_faces`'s result), so nothing
in the response can flag a persistence warning — yet it reports success. -/
theorem C2_no_persistence_warning_counterexample :
    ¬ persistence_warning_flagged
        (enroll 1 [[0]] 0 false initialIndex)
        (enroll 1 [[0]] 0 true initialIndex) ∧
    (enroll 1 [[0]] 0 false initialIndex).1.success = true := by
  exact ⟨fun hne => hne rfl, rfl⟩

/-- Claim C2 (amended): if the save fails after a successful in-memory
mutation, the operation still reports success, but no PersistenceWarning is
flagged — every mutating operation's result is entirely independent of the
save outcome (the failure is only logged). -/
theorem C2_success_reported_save_failure_ignored :
    (∀ (w : Int) (encs : List Emb) (now : Nat) (st : FaceIndex),
      enroll w encs now false st = enroll w encs now true st) ∧
    (∀ (w : Int) (imgs : List (List Emb)) (now : Nat) (st : FaceIndex),
      enroll_batch w imgs now false st = enroll_batch w imgs now true st) ∧
    (∀ (w : Int) (st : FaceIndex),
      delete_worker_faces w false st = delete_worker_faces w true st) ∧
    (∀ (w : Int) (e : Emb) (now : Nat) (st : FaceIndex),
      st.known_face_ids.count w < MAX_FACES_PER_WORKER →
      (enroll w [e] now false st).1.success = true) ∧
    (∀ (w : Int) (imgs : List (List Emb)) (now : Nat) (st : FaceIndex),
      imgs ≠ [] →
      (enroll_batch w imgs now false st).1.success = true) ∧
    (∀ (w : Int) (st : FaceIndex),
      0 < st.known_face_ids.count w →
      (delete_worker_faces w false st).1.success = true) := by
  refine ⟨fun w encs now st => rfl, fun w imgs now st => rfl,
    fun w st => rfl, ?_, ?_, ?_⟩
  · intro w e now st hlt
    simp only [enroll, if_neg (not_le.mpr hlt)]
  · intro w imgs now st hne
    have he : ¬ imgs.isEmpty = true := by
      rw [List.isEmpty_iff]
      exact hne
    simp only [enroll_batch, if_neg he]
  · intro w st hcnt
    have hlenpos : (indicesToRemove w st.known_face_ids).length ≠ 0 := by
      rw [indicesToRemove_length]
      omega
    have he : ¬ (indicesToRemove w st.known_face_ids).isEmpty = true := by
      rw [List.isEmpty_iff, ← List.length_eq_zero]
      exact hlenpos
    simp only [delete_worker_faces, if_neg he]

/-- Witness for C2 (amended) at concrete inputs. -/
theorem C2_success_reported_save_failure_ignored_witness :
    enroll 1 [[0]] 2 false initialIndex = enroll 1 [[0]] 2 true initialIndex ∧
    (enroll 2 [[0]] 3 false initialIndex).1.success = true ∧
    (enroll_batch 4 [[[0]]] 0 false initialIndex).1.success = true ∧
    (delete_worker_faces 3 false (FaceIndex.mk [[0]] [3] [])).1.success = true := by
  have h := C2_success_reported_save_failure_ignored
  exact ⟨h.1 1 [[0]] 2 initialIndex,
    h.2.2.2.1 2 [0] 3 initialIndex (by decide),
    h.2.2.2.2.1 4 [[[0]]] 0 initialIndex (List.cons_ne_nil _ _),
    h.2.2.2.2.2 3 (FaceIndex.mk [[0]] [3] []) (by decide)⟩

/-- Claim C8: `load(save(index))` reproduces the index exactly — identical
embedding sequence, identical worker-id sequence, identical metadata map. -/
theorem C8_save_load_roundtrip (st : FaceIndex) (now : Nat) :
    load_known_faces (StoreFile.ok (mkStoreData st now)) = st := rfl

/-- Claim C3 counterexample: the op sequence of `save_known_faces` is not of
the write-to-temporary-then-replace shape the spec requires. -/
theorem C3_not_atomic_counterexample :
    ¬ save_atomic_via_temp (save_known_faces_ops initialIndex 0) := by
  rintro ⟨tmp, blob, _, heq⟩
  simp [save_known_faces_ops] at heq

/-- Claim C3 (amended): `save_known_faces` writes the serialized blob
directly to the durable file in one write — there is no temporary file and
no atomic replace, so a crash mid-write can leave a half-written store. -/
theorem C3_save_writes_durable_directly (st : FaceIndex) (now : Nat) :
    save_known_faces_ops st now
      = [FsOp.write KNOWN_FACES_FILE (mkStoreData st now)] ∧
    ¬ save_atomic_via_temp (save_known_faces_ops st now) := by
  refine ⟨rfl, ?_⟩
  rintro ⟨tmp, blob, _, heq⟩
  simp [save_known_faces_ops] at heq

/-- Claim C9: for a worker with an existing metadata entry, `enroll_batch`
with k ≥ 1 successful images appends exactly one timestamp to
`enrollment_dates` while adding k to `total_faces`, whereas each single
`enroll` appends one timestamp per enrolled face; hence a sequence of
operations exists after which `enrollment_dates` is strictly shorter than
`total_faces`. -/
theorem C9_batch_appends_single_timestamp :
    (∀ (st : FaceIndex) (w : Int) (m : WMeta) (imgs : List (List Emb))
        (now : Nat) (saveOk : Bool),
      dictGet st.known_face_metadata w = some m →
      0 < successCount imgs →
      dictGet (enroll_batch w imgs now saveOk st).2.known_face_metadata w
        = some ⟨m.first_enrolled, now, m.total_faces + successCount imgs,
            m.enrollment_dates ++ [now]⟩) ∧
    (∀ (st : FaceIndex) (w : Int) (m : WMeta) (e : Emb) (now : Nat)
        (saveOk : Bool),
      dictGet st.known_face_metadata w = some m →
      st.known_face_ids.count w < MAX_FACES_PER_WORKER →
      dictGet (enroll w [e] now saveOk st).2.known_face_metadata w
        = some ⟨m.first_enrolled, now, st.known_face_ids.count w + 1,
            m.enrollment_dates ++ [now]⟩) ∧
    (∃ m : WMeta,
      dictGet (runOps initialIndex
          [Op.opEnroll 7 [[0]] 0 true,
           Op.opBatch 7 [[[1]], [[2]]] 1 true]).known_face_metadata 7
        = some m ∧
      m.enrollment_dates.length < m.total_faces) := by
  refine ⟨?_, ?_, ?_⟩
  · intro st w m imgs now saveOk hm hsc
    have hne : ¬ imgs.isEmpty = true := by
      intro he
      rw [List.isEmpty_iff] at he
      rw [he] at hsc
      simp [successCount] at hsc
    simp only [enroll_batch, if_neg hne]
    have hsc2 : (batchLoop w imgs 0
        ⟨0, 0, [], st.known_face_encodings, st.known_face_ids⟩).successful
          = successCount imgs := by
      rw [batchLoop_successful]
      exact Nat.zero_add _
    rw [hsc2, if_pos hsc, hm]
    exact dictGet_insert_self _ _ _
  · intro st w m e now saveOk hm hlt
    simp only [enroll, if_neg (not_le.mpr hlt), hm]
    exact dictGet_insert_self _ _ _
  · exact ⟨⟨0, 1, 3, [0, 1]⟩, by decide, by decide⟩

/-- Witness for C9 at concrete states with an existing metadata entry. -/
theorem C9_batch_appends_single_timestamp_witness :
    dictGet (enroll_batch 7 [[[1]], [[2]]] 1 true
        (enroll 7 [[0]] 0 true initialIndex).2).2.known_face_metadata 7
      = some ⟨0, 1, 1 + successCount [[[1]], [[2]]], [0] ++ [1]⟩ ∧
    dictGet (enroll 9 [[5]] 4 true
        (enroll 9 [[0]] 0 true initialIndex).2).2.known_face_metadata 9
      = some ⟨0, 4,
          (enroll 9 [[0]] 0 true initialIndex).2.known_face_ids.count 9 + 1,
          [0] ++ [4]⟩ := by
  have h := C9_batch_appends_single_timestamp
  exact ⟨h.1 _ 7 ⟨0, 0, 1, [0]⟩ [[[1]], [[2]]] 1 true (by decide) (by decide),
    h.2.1 _ 9 ⟨0, 0, 1, [0]⟩ [5] 4 true (by decide) (by decide)⟩

/-- Claim C6: deleting a worker that has at least one record removes every
record of that worker (the remaining records keep their relative order and
lock-step pairing), deletes its metadata entry while leaving every other
worker's entry untouched, and returns the removed count with success;
deleting a worker with no records fails with the 404 WorkerNotFound
response and leaves the state unchanged, so a second delete right after a
successful one fails with WorkerNotFound. -/
theorem C6_delete_worker_semantics (st : FaceIndex) (w : Int)
    (saveOk saveOk2 : Bool)
    (hnd : (st.known_face_metadata.map Prod.fst).Nodup)
    (hlen : st.known_face_encodings.length = st.known_face_ids.length) :
    (0 < st.known_face_ids.count w →
      ((delete_worker_faces w saveOk st).1.success = true ∧
       (delete_worker_faces w saveOk st).1.status = 200 ∧
       (delete_worker_faces w saveOk st).1.faces_deleted
         = some (st.known_face_ids.count w)) ∧
      ((delete_worker_faces w saveOk st).2.known_face_ids
         = st.known_face_ids.filter (fun x => !(x == w)) ∧
       (delete_worker_faces w saveOk st).2.known_face_encodings
         = ((st.known_face_encodings.zip st.known_face_ids).filter
             (fun p => !(p.2 == w))).map Prod.fst ∧
       dictGet (delete_worker_faces w saveOk st).2.known_face_metadata w
         = none ∧
       (∀ w', w' ≠ w →
         dictGet (delete_worker_faces w saveOk st).2.known_face_metadata w'
           = dictGet st.known_face_metadata w')) ∧
      ((delete_worker_faces w saveOk2
          (delete_worker_faces w saveOk st).2).1.success = false ∧
       (delete_worker_faces w saveOk2
          (delete_worker_faces w saveOk st).2).1.status = 404 ∧
       (delete_worker_faces w saveOk2 (delete_worker_faces w saveOk st).2).2
         = (delete_worker_faces w saveOk st).2)) ∧
    (st.known_face_ids.count w = 0 →
      (delete_worker_faces w saveOk st).1.success = false ∧
      (delete_worker_faces w saveOk st).1.status = 404 ∧
      (delete_worker_faces w saveOk st).2 = st) := by
  constructor
  · intro hcnt
    rw [delete_found st w saveOk hlen hcnt]
    refine ⟨⟨rfl, rfl, rfl⟩, ⟨rfl, rfl, ?_, ?_⟩, ?_⟩
    · show dictGet (if (dictGet st.known_face_metadata w).isSome then
          dictErase st.known_face_metadata w
        else st.known_face_metadata) w = none
      by_cases hs : (dictGet st.known_face_metadata w).isSome
      · rw [if_pos hs]
        exact dictGet_erase_self _ _ hnd
      · rw [if_neg hs]
        exact Option.not_isSome_iff_eq_none.mp hs
    · intro w' hww
      show dictGet (if (dictGet st.known_face_metadata w).isSome then
          dictErase st.known_face_metadata w
        else st.known_face_metadata) w' = dictGet st.known_face_metadata w'
      by_cases hs : (dictGet st.known_face_metadata w).isSome
      · rw [if_pos hs]
        exact dictGet_erase_ne _ _ _ hww
      · rw [if_neg hs]
    · have h0 : (st.known_face_ids.filter (fun x => !(x == w))).count w = 0 :=
        count_filter_ne_self _ _
      rw [delete_notfound _ w saveOk2 h0]
      exact ⟨rfl, rfl, rfl⟩
  · intro hcnt
    rw [delete_notfound st w saveOk hcnt]
    exact ⟨rfl, rfl, rfl⟩

/-- Witness for C6: delete worker 5 from `stTwoWorkers` (two records),
then delete again. -/
theorem C6_delete_worker_semantics_witness :
    (delete_worker_faces 5 true stTwoWorkers).1.success = true ∧
    (delete_worker_faces 5 true stTwoWorkers).1.faces_deleted = some 2 ∧
    (delete_worker_faces 5 true stTwoWorkers).2.known_face_ids
      = stTwoWorkers.known_face_ids.filter (fun x => !(x == 5)) ∧
    dictGet (delete_worker_faces 5 true stTwoWorkers).2.known_face_metadata 5
      = none ∧
    (delete_worker_faces 5 false
        (delete_worker_faces 5 true stTwoWorkers).2).1.status = 404 := by
  have h := C6_delete_worker_semantics stTwoWorkers 5 true false
    (by decide) rfl
  have h1 := h.1 (by decide)
  exact ⟨h1.1.1, h1.1.2.2, h1.2.1.1, h1.2.1.2.2.1, h1.2.2.2.1⟩

theorem argminIdx_singleton (a : ℝ) : argminIdx [a] = 0 := rfl

theorem argminIdx_cons (a b : ℝ) (t : List ℝ) :
    argminIdx (a :: b :: t)
      = if (b :: t).getD (argminIdx (b :: t)) 0 < a
        then argminIdx (b :: t) + 1 else 0 := rfl

theorem argminIdx_lt_length (l : List ℝ) (h : l ≠ []) :
    argminIdx l < l.length := by
  induction l with
  | nil => exact absurd rfl h
  | cons a rest ih =>
    cases rest with
    | nil => simp [argminIdx_singleton]
    | cons b t =>
      rw [argminIdx_cons]
      by_cases hlt : (b :: t).getD (argminIdx (b :: t)) 0 < a
      · rw [if_pos hlt]
        have h2 := ih (List.cons_ne_nil b t)
        simp only [List.length_cons] at h2 ⊢
        omega
      · rw [if_neg hlt]
        simp

theorem argminIdx_is_min (l : List ℝ) : ∀ j, j < l.length →
    l.getD (argminIdx l) 0 ≤ l.getD j 0 := by
  induction l with
  | nil =>
    intro j hj
    simp at hj
  | cons a rest ih =>
    cases rest with
    | nil =>
      intro j hj
      have hj0 : j = 0 := by simpa using Nat.lt_one_iff.mp (by simpa using hj)
      subst hj0
      exact le_refl _
    | cons b t =>
      intro j hj
      rw [argminIdx_cons]
      by_cases hlt : (b :: t).getD (argminIdx (b :: t)) 0 < a
      · rw [if_pos hlt, List.getD_cons_succ]
        cases j with
        | zero =>
          rw [List.getD_cons_zero]
          exact le_of_lt hlt
        | succ k =>
          rw [List.getD_cons_succ]
          exact ih k (by simpa using hj)
      · rw [if_neg hlt, List.getD_cons_zero]
        push_neg at hlt
        cases j with
        | zero =>
          rw [List.getD_cons_zero]
        | succ k =>
          rw [List.getD_cons_succ]
          exact le_trans hlt (ih k (by simpa using hj))

theorem argminIdx_first_min (l : List ℝ) : ∀ j, j < argminIdx l →
    l.getD (argminIdx l) 0 < l.getD j 0 := by
  induction l with
  | nil =>
    intro j hj
    simp [argminIdx] at hj
  | cons a rest ih =>
    cases rest with
    | nil =>
      intro j hj
      rw [argminIdx_singleton] at hj
      omega
    | cons b t =>
      intro j hj
      rw [argminIdx_cons] at hj ⊢
      by_cases hlt : (b :: t).getD (argminIdx (b :: t)) 0 < a
      · rw [if_pos hlt] at hj ⊢
        rw [List.getD_cons_succ]
        cases j with
        | zero =>
          rw [List.getD_cons_zero]
          exact hlt
        | succ k =>
          rw [List.getD_cons_succ]
          exact ih k (by omega)
      · rw [if_neg hlt] at hj
        omega

theorem face_distance_length (encs : List Emb) (q : Emb) :
    (face_distance encs q).length = encs.length :=
  List.length_map _ _

theorem face_distance_getD (encs : List Emb) (q : Emb) : ∀ (j : Nat),
    j < encs.length →
    (face_distance encs q).getD j 0 = euclidDist (encs.getD j []) q := by
  induction encs with
  | nil =>
    intro j hj
    simp at hj
  | cons e rest ih =>
    intro j hj
    cases j with
    | zero =>
      simp [face_distance]
    | succ k =>
      have : (face_distance (e :: rest) q)
          = euclidDist e q :: face_distance rest q := rfl
      rw [this, List.getD_cons_succ, List.getD_cons_succ]
      exact ih k (by simpa using hj)

/-- Claim C5: on an empty index `find_best_match` returns `(none, 0.0)` for
every query and threshold; on a non-empty index the distance list holds the
Euclidean distance from the query to every stored embedding, the selected
index is in range and attains the minimum distance taking the first index on
ties, confidence is `1 − best_distance`, and the result is the owning
worker id with that confidence when `confidence ≥ threshold`, else `none`
with the same confidence still reported. -/
theorem C5_find_best_match_spec :
    (∀ (q : Emb) (threshold : ℝ) (st : FaceIndex),
      st.known_face_encodings = [] →
      find_best_match q threshold st = (none, 0)) ∧
    (∀ (q : Emb) (threshold : ℝ) (st : FaceIndex),
      st.known_face_encodings ≠ [] →
      st.known_face_encodings.length = st.known_face_ids.length →
      (∀ j, j < (face_distance st.known_face_encodings q).length →
        (face_distance st.known_face_encodings q).getD j 0
          = euclidDist (st.known_face_encodings.getD j []) q) ∧
      argminIdx (face_distance st.known_face_encodings q)
        < (face_distance st.known_face_encodings q).length ∧
      (∀ j, j < (face_distance st.known_face_encodings q).length →
        (face_distance st.known_face_encodings q).getD
            (argminIdx (face_distance st.known_face_encodings q)) 0
          ≤ (face_distance st.known_face_encodings q).getD j 0) ∧
      (∀ j, j < argminIdx (face_distance st.known_face_encodings q) →
        (face_distance st.known_face_encodings q).getD
            (argminIdx (face_distance st.known_face_encodings q)) 0
          < (face_distance st.known_face_encodings q).getD j 0) ∧
      (st.known_face_ids.get?
          (argminIdx (face_distance st.known_face_encodings q))).isSome ∧
      find_best_match q threshold st
        = (if threshold ≤
              1 - (face_distance st.known_face_encodings q).getD
                    (argminIdx (face_distance st.known_face_encodings q)) 0
           then
             (st.known_face_ids.get?
                (argminIdx (face_distance st.known_face_encodings q)),
              1 - (face_distance st.known_face_encodings q).getD
                    (argminIdx (face_distance st.known_face_encodings q)) 0)
           else
             (none,
              1 - (face_distance st.known_face_encodings q).getD
                    (argminIdx (face_distance st.known_face_encodings q)) 0))) := by
  constructor
  · intro q threshold st h
    rcases st with ⟨encs, ids, meta⟩
    cases encs with
    | nil => rfl
    | cons e rest => simp at h
  · intro q threshold st hne hlen
    rcases st with ⟨encs, ids, meta⟩
    cases encs with
    | nil => exact absurd rfl hne
    | cons e0 erest =>
      have hdne : face_distance (e0 :: erest) q ≠ [] := by
        simp [face_distance]
      refine ⟨?_, ?_, ?_, ?_, ?_, ?_⟩
      · intro j hj
        rw [face_distance_length] at hj
        exact face_distance_getD _ q j hj
      · exact argminIdx_lt_length _ hdne
      · intro j hj
        exact argminIdx_is_min _ j hj
      · intro j hj
        exact argminIdx_first_min _ j hj
      · have hi : argminIdx (face_distance (e0 :: erest) q) < ids.length := by
          rw [← hlen]
          rw [← face_distance_length (e0 :: erest) q]
          exact argminIdx_lt_length _ hdne
        simp [List.get?_eq_getElem?, hi]
      · rfl

/-- Witness for C5: the empty index, and the non-empty `stTwoWorkers`. -/
theorem C5_find_best_match_spec_witness :
    find_best_match [0] (6 / 10) initialIndex = (none, 0) ∧
    argminIdx (face_distance stTwoWorkers.known_face_encodings [0])
      < (face_distance stTwoWorkers.known_face_encodings [0]).length ∧
    (stTwoWorkers.known_face_ids.get?
        (argminIdx (face_distance stTwoWorkers.known_face_encodings [0]))).isSome := by
  have h := C5_find_best_match_spec
  have h2 := h.2 [0] (6 / 10) stTwoWorkers (by simp [stTwoWorkers]) rfl
  exact ⟨h.1 [0] (6 / 10) initialIndex rfl, h2.2.1, h2.2.2.2.2.1⟩

/-- Claim C10: `find_best_match` returns `1 − best_distance` without
clamping: with one stored embedding `[0]` and query `[2]` the minimum
Euclidean distance is `2 > 1`, and the returned confidence is `1 − 2 < 0`
(with no match, threshold 0.6). -/
theorem C10_confidence_not_clamped :
    euclidDist [(0 : ℝ)] [2] = 2 ∧ (1 : ℝ) < 2 ∧
    find_best_match [2] (6 / 10) (FaceIndex.mk [[0]] [1] []) = (none, 1 - 2) ∧
    (1 - 2 : ℝ) < 0 := by
  have hd : euclidDist [(0 : ℝ)] [2] = 2 := by
    unfold euclidDist
    have hz : ([(0 : ℝ)].zip ([2] : List ℝ)) = [((0 : ℝ), (2 : ℝ))] := rfl
    rw [hz, List.map_cons, List.map_nil, List.sum_cons, List.sum_nil, add_zero]
    rw [show ((0 : ℝ) - 2) ^ 2 = 2 ^ 2 by norm_num]
    exact Real.sqrt_sq (by norm_num)
  have hfd : face_distance [[(0 : ℝ)]] [2] = [2] := by
    have : face_distance [[(0 : ℝ)]] [2] = [euclidDist [(0 : ℝ)] [2]] := rfl
    rw [this, hd]
  refine ⟨hd, by norm_num, ?_, by norm_num⟩
  have heq : find_best_match [2] (6 / 10) (FaceIndex.mk [[0]] [1] [])
      = (if (6 / 10 : ℝ) ≤
            1 - (face_distance [[(0 : ℝ)]] [2]).getD
                  (argminIdx (face_distance [[(0 : ℝ)]] [2])) 0
         then
           (([1] : List Int).get?
              (argminIdx (face_distance [[(0 : ℝ)]] [2])),
            1 - (face_distance [[(0 : ℝ)]] [2]).getD
                  (argminIdx (face_distance [[(0 : ℝ)]] [2])) 0)
         else
           (none,
            1 - (face_distance [[(0 : ℝ)]] [2]).getD
                  (argminIdx (face_distance [[(0 : ℝ)]] [2])) 0)) := rfl
  rw [heq, hfd, argminIdx_singleton, List.getD_cons_zero]
  rw [if_neg (by norm_num : ¬ (6 / 10 : ℝ) ≤ 1 - 2)]
